import Mathlib

/-!
Shallow embedding of the Voco correction-engine scripts:
`scripts/test_bert_scoring.py`, `scripts/prepare_pinyin_data.py` and
`scripts/validate_suspicious_words.py`.

Per-position BERT logits are abstracted as an oracle function; everything
else is translated directly from the Python source.  Logit scores are
modelled as rationals (the source uses floats but performs only addition,
subtraction and comparisons on them).
-/

namespace Voco

/-! ### Decision policy (`test_bert_scoring.py`, `run_test`) -/

/-- Confusion class of a candidate pair: `nasal` when `is_nasal_pair` holds,
`default` otherwise (spec §3 "Confusion Class"). -/
inductive ConfusionClass where
  | default
  | nasal
deriving DecidableEq

/-- Verdict emitted by the decision policy. -/
inductive Verdict where
  | accept
  | reject
deriving DecidableEq

/-- `homophone_threshold = 2.0` from `run_test`. -/
def homophone_threshold : ℚ := 2

/-- `nasal_threshold = 2.5` from `run_test`. -/
def nasal_threshold : ℚ := 5 / 2

/-- Threshold selected for a confusion class
(`threshold = nasal_threshold if is_nasal_pair(...) else homophone_threshold`). -/
def threshold : ConfusionClass → ℚ
  | .default => homophone_threshold
  | .nasal => nasal_threshold

/-- The accept/reject policy: `verdict = accept if score > threshold else reject`
(`run_test`, line 84). -/
def verdict (score : ℚ) (cls : ConfusionClass) : Verdict :=
  if threshold cls < score then .accept else .reject

/-! ### Nasal-pair classification (`is_nasal_pair`) -/

/-- The fixed curated set `nasal_pairs` from `is_nasal_pair`. -/
def nasal_pairs : List (Char × Char) :=
  [('銀', '螢'), ('螢', '銀'),
   ('幕', '幕'),
   ('民', '明'), ('明', '民'),
   ('品', '瓶'), ('瓶', '品')]

/-- `is_nasal_pair(a, b)`: true iff some aligned character pair of the zipped
words lies in `nasal_pairs`. -/
def is_nasal_pair (a b : List Char) : Bool :=
  (a.zip b).any (fun p => nasal_pairs.contains p)

/-- Confusion class assigned by `run_test` when choosing the threshold. -/
def confusion_class (a b : List Char) : ConfusionClass :=
  if is_nasal_pair a b then .nasal else .default

/-! ### BERT scoring (`score_replacement`, `score_word_replacement`)

The masked-language model is abstracted as an oracle
`logit : List String → ℕ → String → ℚ` mapping (masked token sequence,
token index, token) to that token's logit at the index. -/

/-- Masking step of `score_replacement`:
`chars = list(text); chars[position] = "[MASK]"`. -/
def maskAt (text : List Char) (position : ℕ) : List String :=
  (text.map toString).set position "[MASK]"

/-- `score_replacement(tokenizer, model, text, position, original_char,
candidate_char)`: mask `position`, read the logits at `position + 1`
(offset for `[CLS]`), return `logits[cand_id] - logits[orig_id]`. -/
def score_replacement (logit : List String → ℕ → String → ℚ)
    (text : List Char) (position : ℕ)
    (original_char candidate_char : Char) : ℚ :=
  logit (maskAt text position) (position + 1) (toString candidate_char)
    - logit (maskAt text position) (position + 1) (toString original_char)

/-- `score_word_replacement(tokenizer, model, text, word_offset, original_word,
candidate_word)`: iterate over `enumerate(zip(original_word, candidate_word))`
and accumulate `score_replacement` at each differing position. -/
def score_word_replacement (logit : List String → ℕ → String → ℚ)
    (text : List Char) (word_offset : ℕ)
    (original_word candidate_word : List Char) : ℚ :=
  ((original_word.zip candidate_word).enum).foldl
    (fun total p =>
      if p.2.1 ≠ p.2.2 then
        total + score_replacement logit text (word_offset + p.1) p.2.1 p.2.2
      else total)
    0

/-! ### Theorems for the scoring loop -/

/-! ### Frequency-ratio score (`main`, test 6 of `test_bert_scoring.py`)

`freq_score = np.log(cand_freq) - np.log(orig_freq + 1)`.  `np.log` returns
`-inf` on `0`, so the logarithm of a natural number is modelled in `EReal`. -/

/-- Logarithm of a natural number as `np.log` computes it: `-inf` at `0`,
the real logarithm elsewhere. -/
noncomputable def npLog (n : ℕ) : EReal :=
  if n = 0 then ⊥ else ((Real.log n : ℝ) : EReal)

/-- `freq_score = np.log(cand_freq) - np.log(orig_freq + 1)` from `main`. -/
noncomputable def freq_score (orig_freq cand_freq : ℕ) : EReal :=
  npLog cand_freq - npLog (orig_freq + 1)

/-! ### Phonetic inverted index (`prepare_pinyin_data.py`, steps 1–2)

`char_pinyin` dictionaries are modelled as association lists in insertion
order; the `defaultdict(list)` of `generate_pinyin_chars` is modelled as a
total function `String → List Char` defaulting to `[]`. -/

/-- `strip_tone(py)`: remove the trailing run of digits
(`re.sub(r"\d+$", "", py)`). -/
def strip_tone (py : String) : String :=
  String.mk ((py.data.reverse.dropWhile Char.isDigit).reverse)

/-- Pointwise update of a dictionary-as-function. -/
def updateGroup (m : String → List Char) (k : String) (v : List Char) :
    String → List Char :=
  fun q => if q = k then v else m q

/-- One iteration of the inner loop of `generate_pinyin_chars`: carry the
`seen_toneless` set; on a new nonempty toneless form, record it and append
the character to its group. -/
def add_readings_step (c : Char)
    (acc : List String × (String → List Char)) (r : String) :
    List String × (String → List Char) :=
  let t := strip_tone r
  if t ≠ "" ∧ t ∉ acc.1 then
    (t :: acc.1, updateGroup acc.2 t (acc.2 t ++ [c]))
  else acc

/-- Process all readings of one character (inner loop of
`generate_pinyin_chars`). -/
def add_readings (m : String → List Char) (c : Char)
    (readings : List String) : String → List Char :=
  (readings.foldl (add_readings_step c) ([], m)).2

/-- The accumulated `pinyin_chars` groups before the final per-group sort. -/
def pinyin_groups (char_pinyin : List (Char × List String)) :
    String → List Char :=
  char_pinyin.foldl (fun m p => add_readings m p.1 p.2) (fun _ => [])

/-- `generate_pinyin_chars(char_pinyin)`: the inverted index, each group
sorted for determinism (`result = {k: sorted(v) for ...}`). -/
def generate_pinyin_chars (char_pinyin : List (Char × List String)) :
    String → List Char :=
  fun t => (pinyin_groups char_pinyin t).mergeSort (fun a b => a ≤ b)

/-- Invariant of the inner loop: the character has already been appended to
the group of every toneless form recorded as seen. -/
def SeenInv (c : Char) (acc : List String × (String → List Char)) : Prop :=
  ∀ t ∈ acc.1, c ∈ acc.2 t

/-! ### Word and bigram frequency stores (`prepare_pinyin_data.py`, steps 3–4)

Python dicts keyed by words are modelled as functions `String → Option ℕ`
(`none` = key absent), matching `defaultdict(int)` reads via `.getD 0`.
The jieba corpus is abstracted as a list of parsed `(word, freq)` lines and
the OpenCC converter as an abstract function `conv`. -/

/-- Pointwise update of a frequency dictionary. -/
def updateFreq (m : String → Option ℕ) (k : String) (v : ℕ) :
    String → Option ℕ :=
  fun q => if q = k then some v else m q

/-- The `TAIWAN_EXTRA_WORDS` boost table. -/
def TAIWAN_EXTRA_WORDS : List (String × ℕ) :=
  [("捷運", 50000), ("悠遊卡", 30000), ("健保", 40000), ("程式碼", 60000),
   ("程式", 80000), ("辨識", 70000), ("語音辨識", 50000), ("轉錄", 40000),
   ("設定", 60000), ("預設", 40000), ("偵測", 40000), ("存取", 30000),
   ("網路", 60000), ("品質", 40000), ("伺服器", 50000), ("連線", 40000),
   ("檔案", 60000), ("資料夾", 40000), ("應用程式", 50000), ("視窗", 40000),
   ("螢幕", 40000), ("韌體", 20000), ("列印", 30000), ("硬碟", 30000),
   ("記憶體", 30000), ("處理器", 30000), ("點擊", 30000), ("游標", 20000),
   ("機器學習", 30000), ("深度學習", 30000), ("人工智慧", 40000),
   ("演算法", 30000), ("大語言模型", 30000), ("逗號", 30000), ("句號", 30000),
   ("問號", 20000), ("驚嘆號", 20000), ("分號", 15000), ("冒號", 15000),
   ("引號", 15000), ("括號", 15000), ("區公所", 25000), ("北投", 30000),
   ("漸凍人", 20000), ("配送", 30000), ("運算", 40000), ("雲端運算", 25000),
   ("模擬飛行", 20000), ("額度", 25000), ("推送", 25000), ("日誌", 25000),
   ("專案", 40000), ("單指", 15000)]

/-- Corpus-accumulation phase of `generate_word_freq`:
`word_freq[converter.convert(word)] += freq` over the parsed corpus lines. -/
def word_corpus_counts (conv : String → String)
    (corpus : List (String × ℕ)) : String → Option ℕ :=
  corpus.foldl
    (fun m p => updateFreq m (conv p.1) ((m (conv p.1)).getD 0 + p.2))
    (fun _ => none)

/-- Domain-boost phase shared by `generate_word_freq` and
`generate_bigram_freq`: `m[w] = max(m[w], f)` for each table entry. -/
def apply_boost (m : String → Option ℕ) (boosts : List (String × ℕ)) :
    String → Option ℕ :=
  boosts.foldl (fun m p => updateFreq m p.1 (max ((m p.1).getD 0) p.2)) m

/-- Single-character floor phase of `generate_word_freq`:
`if char not in word_freq: word_freq[char] = 1`. -/
def add_single_chars (m : String → Option ℕ)
    (char_pinyin : List (Char × List String)) : String → Option ℕ :=
  char_pinyin.foldl
    (fun m p =>
      if (m (toString p.1)).isSome then m else updateFreq m (toString p.1) 1)
    m

/-- `generate_word_freq(char_pinyin)`: corpus accumulation, then the Taiwan
word boost, then the single-character floor. -/
def generate_word_freq (conv : String → String) (corpus : List (String × ℕ))
    (char_pinyin : List (Char × List String)) : String → Option ℕ :=
  add_single_chars
    (apply_boost (word_corpus_counts conv corpus) TAIWAN_EXTRA_WORDS)
    char_pinyin

/-! ### Single-character floor (claim C5) -/

/-- A frequency map whose every stored value is positive. -/
def PosMap (m : String → Option ℕ) : Prop :=
  ∀ k v, m k = some v → 1 ≤ v

/-! ### Bigram frequency store (`generate_bigram_freq`) -/

/-- The `TAIWAN_EXTRA_BIGRAMS` boost table. -/
def TAIWAN_EXTRA_BIGRAMS : List (String × ℕ) :=
  [("程式", 80000), ("式碼", 60000), ("辨識", 70000), ("識度", 40000),
   ("語音", 50000), ("音辨", 30000), ("轉錄", 40000), ("設定", 60000),
   ("預設", 40000), ("偵測", 40000), ("存取", 30000), ("網路", 60000),
   ("品質", 40000), ("伺服", 40000), ("服器", 40000), ("連線", 40000),
   ("檔案", 60000), ("資料", 50000), ("料夾", 30000), ("應用", 40000),
   ("用程", 30000), ("視窗", 40000), ("螢幕", 40000), ("韌體", 20000),
   ("列印", 30000), ("硬碟", 30000), ("記憶", 30000), ("憶體", 30000),
   ("處理", 40000), ("理器", 30000), ("點擊", 30000), ("機器", 30000),
   ("器學", 20000), ("學習", 30000), ("深度", 30000), ("人工", 30000),
   ("工智", 30000), ("智慧", 30000), ("演算", 30000), ("算法", 30000),
   ("語言", 40000), ("言模", 20000), ("模型", 30000), ("專案", 40000),
   ("雲端", 25000), ("端運", 20000), ("運算", 40000), ("模擬", 20000),
   ("擬飛", 15000), ("飛行", 20000), ("漸凍", 15000), ("凍人", 15000)]

/-- The 2-wide sliding window over a word:
`chars[j] + chars[j+1]` for `j in range(len(chars) - 1)`. -/
def bigramsOf (w : String) : List String :=
  (w.data.zip w.data.tail).map (fun p => String.mk [p.1, p.2])

/-- Corpus-accumulation phase of `generate_bigram_freq`: every bigram of
every stored word of length ≥ 2 accumulates the parent word's frequency. -/
def bigram_counts (items : List (String × ℕ)) : String → Option ℕ :=
  items.foldl
    (fun m p =>
      if p.1.length < 2 then m
      else (bigramsOf p.1).foldl
        (fun m' bg => updateFreq m' bg ((m' bg).getD 0 + p.2)) m)
    (fun _ => none)

/-- Pruning step of `generate_bigram_freq`: keep an entry only when its
frequency exceeds 50 (`if freq > 50`), absent keys stay absent. -/
def prune50 : Option ℕ → Option ℕ
  | some f => if 50 < f then some f else none
  | none => none

/-- `generate_bigram_freq(word_freq)`: sliding-window accumulation, Taiwan
bigram boost, then pruning of entries with count ≤ 50. -/
def generate_bigram_freq (items : List (String × ℕ)) : String → Option ℕ :=
  fun k => prune50 (apply_boost (bigram_counts items) TAIWAN_EXTRA_BIGRAMS k)

/-- A frequency map whose every present key has exactly two characters. -/
def KeyLen2 (m : String → Option ℕ) : Prop :=
  ∀ k, (m k).isSome → k.length = 2

/-! ### Suspicious-span detection (`validate_suspicious_words.py`) -/

/-- `LOW_FREQ_THRESHOLD = 5` from `validate_suspicious_words.py`. -/
def LOW_FREQ_THRESHOLD : ℕ := 5

/-- The reference validation logic's suspicious set (`low_freq_words`,
line 67): stored words with frequency in `1..LOW_FREQ_THRESHOLD` and length
at least 2. -/
def low_freq_words (freqs : List (String × ℕ)) : List (String × ℕ) :=
  freqs.filter
    (fun p => decide (1 ≤ p.2 ∧ p.2 ≤ LOW_FREQ_THRESHOLD ∧ 2 ≤ p.1.length))

/-- Modelled from the spec: the runtime suspicious-span detector
(`HomophoneCorrectionEngine.findSuspicious`) lives in the host application,
not in the scripts; per §4.2 a span is marked suspicious iff its length is
at least 2 and its stored frequency is absent or below the low-frequency
threshold, unless the word-segmentation boundary check accepts the span as
one indivisible token. -/
def findSuspicious (wordFreq : String → Option ℕ)
    (segmenterAccepts : String → Bool) (span : String) : Bool :=
  decide (2 ≤ span.length)
    && (match wordFreq span with
        | none => true
        | some f => decide (f < LOW_FREQ_THRESHOLD))
    && !(segmenterAccepts span)

/-! ### Theorems -/

/-- Accumulation lemma: the scoring fold equals the initial value plus the sum
of the per-position deltas over the differing positions. -/
theorem scoreFold_eq_sum (f : ℕ → Char → Char → ℚ)
    (l : List (ℕ × Char × Char)) (acc : ℚ) :
    l.foldl (fun total p =>
        if p.2.1 ≠ p.2.2 then total + f p.1 p.2.1 p.2.2 else total) acc
      = acc + ((l.filter (fun p => p.2.1 != p.2.2)).map
          (fun p => f p.1 p.2.1 p.2.2)).sum := by
  induction l generalizing acc with
  | nil => simp
  | cons hd tl ih =>
    rw [List.foldl_cons, ih, List.filter_cons]
    by_cases h : hd.2.1 = hd.2.2
    · simp [h]
    · simp [h, add_assoc]

/-- C7: the contextual word-replacement score is exactly the sum, over the
aligned positions where the original and candidate characters differ, of the
per-position masked-oracle deltas `logit(cand) − logit(orig)` at
`offset + i`; agreeing positions contribute nothing, and each per-position
delta is the masked-oracle logit difference at the shifted index. -/
theorem score_word_replacement_eq_sum_of_diffs
    (logit : List String → ℕ → String → ℚ) (text : List Char)
    (word_offset : ℕ) (original_word candidate_word : List Char) :
    score_word_replacement logit text word_offset original_word candidate_word
      = (((original_word.zip candidate_word).enum.filter
            (fun p => p.2.1 != p.2.2)).map
          (fun p => score_replacement logit text (word_offset + p.1)
            p.2.1 p.2.2)).sum
    ∧ ∀ pos o c, score_replacement logit text pos o c
        = logit (maskAt text pos) (pos + 1) (toString c)
          - logit (maskAt text pos) (pos + 1) (toString o) := by
  constructor
  · unfold score_word_replacement
    rw [scoreFold_eq_sum (fun i o c => score_replacement logit text (word_offset + i) o c)]
    simp
  · intro pos o c
    rfl

/-- Helper: a pair drawn from `zip w w` has equal components. -/
theorem mem_zip_self_eq (w : List Char) (p : Char × Char)
    (hp : p ∈ w.zip w) : p.1 = p.2 := by
  induction w with
  | nil => simp at hp
  | cons hd tl ih =>
    simp only [List.zip_cons_cons, List.mem_cons] at hp
    rcases hp with h | h
    · rw [h]
    · exact ih h

/-- C2: an identical word "replacement" always scores exactly 0 and is
rejected under every confusion class (both thresholds 2.0 and 2.5). -/
theorem identity_replacement_scores_zero_and_rejects
    (logit : List String → ℕ → String → ℚ) (text : List Char)
    (word_offset : ℕ) (w : List Char) :
    score_word_replacement logit text word_offset w w = 0
    ∧ ∀ cls : ConfusionClass,
        verdict (score_word_replacement logit text word_offset w w) cls
          = .reject := by
  have hz : score_word_replacement logit text word_offset w w = 0 := by
    unfold score_word_replacement
    rw [scoreFold_eq_sum (fun i o c => score_replacement logit text (word_offset + i) o c)]
    have hnil : ((w.zip w).enum.filter (fun p => p.2.1 != p.2.2)) = [] := by
      rw [List.filter_eq_nil_iff]
      intro p hp
      have hsnd : p.2 ∈ w.zip w := by
        have hmap := List.mem_map_of_mem Prod.snd hp
        rwa [List.enum_map_snd] at hmap
      simp [mem_zip_self_eq w p.2 hsnd]
    rw [hnil]
    simp
  refine ⟨hz, ?_⟩
  intro cls
  rw [hz]
  cases cls <;>
    norm_num [verdict, threshold, nasal_threshold, homophone_threshold]

/-- C1: the decision policy is `accept` exactly when the contextual score
exceeds the class threshold, with `threshold(default) = 2.0` and
`threshold(nasal) = 2.5`; consequently every score in the open-closed range
`(2, 5/2]` is accepted for a default-class pair and rejected for a
nasal-class pair. -/
theorem verdict_threshold_spec (s : ℚ) (h1 : 2 < s) (h2 : s ≤ 5 / 2) :
    threshold .default = 2
    ∧ threshold .nasal = 5 / 2
    ∧ (∀ (t : ℚ) (cls : ConfusionClass),
        verdict t cls = .accept ↔ threshold cls < t)
    ∧ verdict s .default = .accept
    ∧ verdict s .nasal = .reject := by
  have hchar : ∀ (t : ℚ) (cls : ConfusionClass),
      verdict t cls = .accept ↔ threshold cls < t := by
    intro t cls
    unfold verdict
    by_cases h : threshold cls < t
    · simp [h]
    · simp [h]
  refine ⟨rfl, rfl, hchar, ?_, ?_⟩
  · unfold verdict threshold homophone_threshold
    rw [if_pos h1]
  · unfold verdict threshold nasal_threshold
    rw [if_neg (not_lt.mpr h2)]

/-- Witness for C1 at the concrete score 9/4. -/
theorem verdict_threshold_spec_witness :
    (2 < (9 / 4 : ℚ) ∧ (9 / 4 : ℚ) ≤ 5 / 2)
    ∧ (verdict (9 / 4) .default = .accept ∧ verdict (9 / 4) .nasal = .reject) := by
  have h1 : 2 < (9 / 4 : ℚ) := by norm_num
  have h2 : (9 / 4 : ℚ) ≤ 5 / 2 := by norm_num
  exact ⟨⟨h1, h2⟩, (verdict_threshold_spec (9 / 4) h1 h2).2.2.2⟩

/-- C10: whenever two words carry `幕` at the same aligned position — i.e.
`(幕, 幕)` occurs in their character-wise zip — `is_nasal_pair` classifies the
pair as nasal (since `(幕, 幕)` is in the curated set), so `run_test` selects
the stricter threshold 2.5, regardless of which characters actually differ. -/
theorem aligned_mu_forces_nasal_class (a b : List Char)
    (h : ('幕', '幕') ∈ a.zip b) :
    is_nasal_pair a b = true
    ∧ confusion_class a b = .nasal
    ∧ threshold (confusion_class a b) = 5 / 2 := by
  have hmem : ('幕', '幕') ∈ nasal_pairs := by decide
  have hn : is_nasal_pair a b = true := by
    unfold is_nasal_pair
    rw [List.any_eq_true]
    exact ⟨('幕', '幕'), h, by decide⟩
  refine ⟨hn, ?_, ?_⟩
  · unfold confusion_class
    rw [hn]
    rfl
  · unfold confusion_class
    rw [hn]
    rfl

/-- Witness for C10: `看幕` vs `刻幕` share `幕` at position 1 while the
differing pair `(看, 刻)` is not in the curated nasal set, yet the pair is
classified nasal. -/
theorem aligned_mu_forces_nasal_class_witness :
    (('幕', '幕') ∈ (['看', '幕'].zip ['刻', '幕'])
      ∧ ('看', '刻') ∉ nasal_pairs)
    ∧ is_nasal_pair ['看', '幕'] ['刻', '幕'] = true
    ∧ confusion_class ['看', '幕'] ['刻', '幕'] = .nasal := by
  refine ⟨⟨by decide, by decide⟩, ?_⟩
  have h := aligned_mu_forces_nasal_class ['看', '幕'] ['刻', '幕'] (by decide)
  exact ⟨h.1, h.2.1⟩

/-- C6: for all non-negative integer frequencies the frequency-ratio score
is `ln(f_cand) − ln(f_orig + 1)`; the `+1` smoothing keeps the subtrahend
finite for every original (in particular an unseen one, `f_orig = 0`), so
for any seen candidate the whole score is the finite real difference of
logarithms; and the score is positive exactly when the candidate is strictly
more common than the smoothed original. -/
theorem freq_score_spec (orig_freq cand_freq : ℕ) :
    (npLog (orig_freq + 1) ≠ ⊥ ∧ npLog (orig_freq + 1) ≠ ⊤)
    ∧ (1 ≤ cand_freq → freq_score orig_freq cand_freq
        = ((Real.log cand_freq - Real.log (orig_freq + 1) : ℝ) : EReal))
    ∧ (0 < freq_score orig_freq cand_freq ↔ orig_freq + 1 < cand_freq) := by
  have horig : npLog (orig_freq + 1) = ((Real.log (orig_freq + 1) : ℝ) : EReal) := by
    unfold npLog
    rw [if_neg (Nat.succ_ne_zero orig_freq)]
    norm_num
  have heq : ∀ _ : 1 ≤ cand_freq, freq_score orig_freq cand_freq
      = ((Real.log cand_freq - Real.log (orig_freq + 1) : ℝ) : EReal) := by
    intro hc
    have hcand : npLog cand_freq = ((Real.log cand_freq : ℝ) : EReal) := by
      unfold npLog
      rw [if_neg (by omega : cand_freq ≠ 0)]
    unfold freq_score
    rw [horig, hcand, EReal.coe_sub]
  refine ⟨⟨by rw [horig]; exact EReal.coe_ne_bot _,
           by rw [horig]; exact EReal.coe_ne_top _⟩, heq, ?_⟩
  rcases Nat.eq_zero_or_pos cand_freq with hz | hc
  · subst hz
    have hbot : freq_score orig_freq 0 = ⊥ := by
      unfold freq_score npLog
      rw [if_pos rfl, if_neg (Nat.succ_ne_zero orig_freq)]
      rfl
    rw [hbot]
    simp
  · rw [heq hc, EReal.coe_pos, sub_pos]
    have h1 : (0 : ℝ) < (orig_freq : ℝ) + 1 := by positivity
    have h2 : (0 : ℝ) < (cand_freq : ℝ) := by exact_mod_cast hc
    rw [Real.log_lt_log_iff h1 h2]
    constructor
    · intro h
      exact_mod_cast h
    · intro h
      exact_mod_cast h

/-- Witness for C6 at `f_orig = 0`, `f_cand = 3`. -/
theorem freq_score_spec_witness :
    1 ≤ 3
    ∧ freq_score 0 3 = ((Real.log (3 : ℕ) - Real.log ((0 : ℕ) + 1) : ℝ) : EReal)
    ∧ (0 < freq_score 0 3 ↔ 0 + 1 < 3) :=
  ⟨by norm_num, ((freq_score_spec 0 3).2.1 (by norm_num)),
   ((freq_score_spec 0 3).2.2)⟩

theorem add_readings_step_mono (c : Char)
    (acc : List String × (String → List Char)) (r : String) (t : String)
    (x : Char) (hx : x ∈ acc.2 t) : x ∈ (add_readings_step c acc r).2 t := by
  unfold add_readings_step
  by_cases h : strip_tone r ≠ "" ∧ strip_tone r ∉ acc.1
  · rw [if_pos h]
    dsimp only
    unfold updateGroup
    by_cases ht : t = strip_tone r
    · subst ht
      rw [if_pos rfl]
      exact List.mem_append_left _ hx
    · rw [if_neg ht]
      exact hx
  · rw [if_neg h]
    exact hx

theorem add_readings_fold_mono (c : Char) (rs : List String)
    (acc : List String × (String → List Char)) (t : String) (x : Char)
    (hx : x ∈ acc.2 t) : x ∈ (rs.foldl (add_readings_step c) acc).2 t := by
  induction rs generalizing acc with
  | nil => exact hx
  | cons r rs ih =>
    rw [List.foldl_cons]
    exact ih _ (add_readings_step_mono c acc r t x hx)

theorem add_readings_step_inv (c : Char)
    (acc : List String × (String → List Char)) (r : String)
    (h : SeenInv c acc) : SeenInv c (add_readings_step c acc r) := by
  unfold add_readings_step
  by_cases hc : strip_tone r ≠ "" ∧ strip_tone r ∉ acc.1
  · rw [if_pos hc]
    intro t ht
    dsimp only at ht ⊢
    unfold updateGroup
    by_cases heq : t = strip_tone r
    · subst heq
      rw [if_pos rfl]
      exact List.mem_append_right _ (by simp)
    · rw [if_neg heq]
      rcases List.mem_cons.mp ht with h1 | h1
      · exact absurd h1 heq
      · exact h t h1
  · rw [if_neg hc]
    exact h

theorem add_readings_fold_hit (c : Char) (rs : List String) (s : String)
    (hs : s ∈ rs) (ht : strip_tone s ≠ "") :
    ∀ acc : List String × (String → List Char), SeenInv c acc →
      c ∈ (rs.foldl (add_readings_step c) acc).2 (strip_tone s) := by
  induction rs with
  | nil => cases hs
  | cons r rs ih =>
    intro acc hinv
    rw [List.foldl_cons]
    rcases List.mem_cons.mp hs with heq | hmem
    · subst heq
      by_cases hseen : strip_tone s ∈ acc.1
      · exact add_readings_fold_mono c rs _ _ _
          (add_readings_step_mono c acc s _ _ (hinv _ hseen))
      · have hc : c ∈ (add_readings_step c acc s).2 (strip_tone s) := by
          unfold add_readings_step
          rw [if_pos ⟨ht, hseen⟩]
          dsimp only
          unfold updateGroup
          rw [if_pos rfl]
          exact List.mem_append_right _ (by simp)
        exact add_readings_fold_mono c rs _ _ _ hc
    · exact ih hmem _ (add_readings_step_inv c acc r hinv)

theorem add_readings_mono (m : String → List Char) (c : Char)
    (rs : List String) (t : String) (x : Char) (hx : x ∈ m t) :
    x ∈ add_readings m c rs t :=
  add_readings_fold_mono c rs ([], m) t x hx

theorem add_readings_hit (m : String → List Char) (c : Char)
    (rs : List String) (s : String) (hs : s ∈ rs)
    (ht : strip_tone s ≠ "") : c ∈ add_readings m c rs (strip_tone s) :=
  add_readings_fold_hit c rs s hs ht ([], m) (by intro t h; cases h)

theorem groups_fold_mono (cp : List (Char × List String))
    (m : String → List Char) (t : String) (x : Char) (hx : x ∈ m t) :
    x ∈ (cp.foldl (fun m p => add_readings m p.1 p.2) m) t := by
  induction cp generalizing m with
  | nil => exact hx
  | cons p cp ih =>
    rw [List.foldl_cons]
    exact ih _ (add_readings_mono m p.1 p.2 t x hx)

theorem groups_fold_hit (cp : List (Char × List String)) (c : Char)
    (rs : List String) (s : String) (hc : (c, rs) ∈ cp) (hs : s ∈ rs)
    (ht : strip_tone s ≠ "") :
    ∀ m : String → List Char,
      c ∈ (cp.foldl (fun m p => add_readings m p.1 p.2) m) (strip_tone s) := by
  induction cp with
  | nil => cases hc
  | cons p cp ih =>
    intro m
    rw [List.foldl_cons]
    rcases List.mem_cons.mp hc with heq | hmem
    · rw [← heq]
      exact groups_fold_mono cp _ _ _ (add_readings_hit m c rs s hs ht)
    · exact ih hmem _

/-- C4: phonetic index consistency — for every character `c` with an entry
in the char-to-syllables map and every reading `s` of `c` whose toneless
form is nonempty (every syllable has a base form), `c` belongs to the
inverted-index group keyed by `toneless(s)`. -/
theorem pinyin_chars_consistency (cp : List (Char × List String)) (c : Char)
    (rs : List String) (s : String) (hc : (c, rs) ∈ cp) (hs : s ∈ rs)
    (ht : strip_tone s ≠ "") :
    c ∈ generate_pinyin_chars cp (strip_tone s) := by
  unfold generate_pinyin_chars
  rw [List.mem_mergeSort]
  exact groups_fold_hit cp c rs s hc hs ht (fun _ => [])

/-- Witness for C4 at a one-entry map. -/
theorem pinyin_chars_consistency_witness :
    (('中', ["zhong1"]) ∈ [('中', ["zhong1"])]
      ∧ "zhong1" ∈ ["zhong1"]
      ∧ strip_tone "zhong1" ≠ "")
    ∧ '中' ∈ generate_pinyin_chars [('中', ["zhong1"])] (strip_tone "zhong1") :=
  ⟨⟨by simp, by simp, by decide⟩,
   pinyin_chars_consistency [('中', ["zhong1"])] '中' ["zhong1"] "zhong1"
     (by simp) (by simp) (by decide)⟩

theorem apply_boost_step_le (m : String → Option ℕ) (p : String × ℕ)
    (k : String) :
    (m k).getD 0 ≤ ((updateFreq m p.1 (max ((m p.1).getD 0) p.2)) k).getD 0 := by
  unfold updateFreq
  by_cases h : k = p.1
  · subst h
    rw [if_pos rfl]
    exact le_max_left _ _
  · rw [if_neg h]

theorem apply_boost_le (m : String → Option ℕ) (boosts : List (String × ℕ))
    (k : String) : (m k).getD 0 ≤ (apply_boost m boosts k).getD 0 := by
  unfold apply_boost
  induction boosts generalizing m with
  | nil => exact le_refl _
  | cons b bs ih =>
    rw [List.foldl_cons]
    exact le_trans (apply_boost_step_le m b k) (ih _)

/-- C9: the domain boost never lowers a count — after `apply_boost` every
key's stored frequency (absent read as 0, as the code reads it) is at least
its pre-boost frequency, and every boosted key ends at least at the boost
table's value.  This is the boost step of both `generate_word_freq` and
`generate_bigram_freq`. -/
theorem apply_boost_monotone (m : String → Option ℕ)
    (boosts : List (String × ℕ)) (k w : String) (f : ℕ)
    (hw : (w, f) ∈ boosts) :
    (m k).getD 0 ≤ (apply_boost m boosts k).getD 0
    ∧ f ≤ (apply_boost m boosts w).getD 0 := by
  refine ⟨apply_boost_le m boosts k, ?_⟩
  unfold apply_boost
  induction boosts generalizing m with
  | nil => cases hw
  | cons b bs ih =>
    rw [List.foldl_cons]
    rcases List.mem_cons.mp hw with heq | hmem
    · have hstep : f ≤ ((updateFreq m b.1 (max ((m b.1).getD 0) b.2)) w).getD 0 := by
        unfold updateFreq
        rw [← heq]
        rw [if_pos rfl]
        exact le_trans (le_max_right _ _) (le_refl _)
      calc f ≤ ((updateFreq m b.1 (max ((m b.1).getD 0) b.2)) w).getD 0 := hstep
        _ ≤ _ := by
            have := apply_boost_le (updateFreq m b.1 (max ((m b.1).getD 0) b.2)) bs w
            unfold apply_boost at this
            exact this
    · exact ih _ hmem

/-- Witness for C9 on the actual Taiwan word table. -/
theorem apply_boost_monotone_witness :
    ("捷運", 50000) ∈ TAIWAN_EXTRA_WORDS
    ∧ ((fun _ => (none : Option ℕ)) "捷運").getD 0
        ≤ (apply_boost (fun _ => none) TAIWAN_EXTRA_WORDS "捷運").getD 0
    ∧ 50000 ≤ (apply_boost (fun _ => none) TAIWAN_EXTRA_WORDS "捷運").getD 0 := by
  have h := apply_boost_monotone (fun _ => none) TAIWAN_EXTRA_WORDS
    "捷運" "捷運" 50000 (by simp [TAIWAN_EXTRA_WORDS])
  exact ⟨by simp [TAIWAN_EXTRA_WORDS], h.1, h.2⟩

theorem word_corpus_counts_pos (conv : String → String)
    (corpus : List (String × ℕ)) (hpos : ∀ p ∈ corpus, 1 ≤ p.2) :
    PosMap (word_corpus_counts conv corpus) := by
  unfold word_corpus_counts
  have : ∀ (l : List (String × ℕ)) (m : String → Option ℕ), PosMap m →
      (∀ p ∈ l, 1 ≤ p.2) →
      PosMap (l.foldl
        (fun m p => updateFreq m (conv p.1) ((m (conv p.1)).getD 0 + p.2)) m) := by
    intro l
    induction l with
    | nil => intro m hm _; exact hm
    | cons p l ih =>
      intro m hm hl
      rw [List.foldl_cons]
      apply ih
      · intro k v hk
        unfold updateFreq at hk
        by_cases h : k = conv p.1
        · rw [if_pos h] at hk
          have hp : 1 ≤ p.2 := hl p (List.mem_cons_self p l)
          have hv := Option.some_inj.mp hk
          omega
        · rw [if_neg h] at hk
          exact hm k v hk
      · intro q hq
        exact hl q (List.mem_cons_of_mem p hq)
  exact this corpus (fun _ => none) (by intro k v hk; cases hk) hpos

theorem apply_boost_pos (m : String → Option ℕ)
    (boosts : List (String × ℕ)) (hm : PosMap m)
    (hb : ∀ p ∈ boosts, 1 ≤ p.2) : PosMap (apply_boost m boosts) := by
  unfold apply_boost
  induction boosts generalizing m with
  | nil => exact hm
  | cons b bs ih =>
    rw [List.foldl_cons]
    apply ih
    · intro k v hk
      unfold updateFreq at hk
      by_cases h : k = b.1
      · rw [if_pos h] at hk
        have hb1 : 1 ≤ b.2 := hb b (List.mem_cons_self b bs)
        have : v = max ((m b.1).getD 0) b.2 := by
          exact (Option.some_inj.mp hk).symm
        rw [this]
        exact le_trans hb1 (le_max_right _ _)
      · rw [if_neg h] at hk
        exact hm k v hk
    · intro q hq
      exact hb q (List.mem_cons_of_mem b hq)

theorem add_single_chars_preserves (cp : List (Char × List String))
    (m : String → Option ℕ) (k : String) (h : (m k).isSome) :
    add_single_chars m cp k = m k := by
  unfold add_single_chars
  induction cp generalizing m with
  | nil => rfl
  | cons p cp ih =>
    rw [List.foldl_cons]
    by_cases hp : (m (toString p.1)).isSome
    · rw [if_pos hp]
      exact ih m h
    · rw [if_neg hp]
      have hk : k ≠ toString p.1 := by
        intro heq
        rw [heq] at h
        exact hp h
      have hstep : (updateFreq m (toString p.1) 1) k = m k := by
        unfold updateFreq
        rw [if_neg hk]
      have hsome : ((updateFreq m (toString p.1) 1) k).isSome := by
        rw [hstep]; exact h
      rw [ih _ hsome, hstep]

theorem add_single_chars_hit (cp : List (Char × List String))
    (m : String → Option ℕ) (c : Char) (rs : List String)
    (hc : (c, rs) ∈ cp) (hm : PosMap m) :
    ∃ f, add_single_chars m cp (toString c) = some f ∧ 1 ≤ f := by
  unfold add_single_chars
  induction cp generalizing m with
  | nil => cases hc
  | cons p cp ih =>
    rw [List.foldl_cons]
    rcases List.mem_cons.mp hc with heq | hmem
    · have hp1 : p.1 = c := by rw [← heq]
      rw [hp1]
      by_cases hs : (m (toString c)).isSome
      · rw [if_pos hs]
        obtain ⟨v, hv⟩ := Option.isSome_iff_exists.mp hs
        have hpres : add_single_chars m cp (toString c) = m (toString c) :=
          add_single_chars_preserves cp m (toString c) hs
        unfold add_single_chars at hpres
        rw [hpres, hv]
        exact ⟨v, rfl, hm _ v hv⟩
      · rw [if_neg hs]
        have hone : (updateFreq m (toString c) 1) (toString c) = some 1 := by
          unfold updateFreq
          rw [if_pos rfl]
        have hsome : ((updateFreq m (toString c) 1) (toString c)).isSome := by
          rw [hone]; rfl
        have hpres := add_single_chars_preserves cp
          (updateFreq m (toString c) 1) (toString c) hsome
        unfold add_single_chars at hpres
        rw [hpres, hone]
        exact ⟨1, rfl, le_refl 1⟩
    · by_cases hp : (m (toString p.1)).isSome
      · rw [if_pos hp]
        exact ih m hmem hm
      · rw [if_neg hp]
        apply ih _ hmem
        intro k v hk
        unfold updateFreq at hk
        by_cases h : k = toString p.1
        · rw [if_pos h] at hk
          have hv := Option.some_inj.mp hk
          omega
        · rw [if_neg h] at hk
          exact hm k v hk

/-- C5 counterexample: with a (parseable) corpus line carrying frequency 0
for the character `一`, the generated store maps `一` to `0`, not to a value
`≥ 1`, even though `一` is present in the phonetic index. -/
theorem single_char_floor_counterexample :
    ('一', ["yi1"]) ∈ [('一', ["yi1"])]
    ∧ generate_word_freq (fun s => s) [("一", 0)] [('一', ["yi1"])] "一"
        = some 0 := by
  constructor
  · simp
  · decide

/-- C5 amended: if every parsed corpus line carries a positive frequency,
then every character present in the phonetic index receives a
`generate_word_freq` entry of at least 1. -/
theorem single_char_floor_amended (conv : String → String)
    (corpus : List (String × ℕ)) (cp : List (Char × List String)) (c : Char)
    (rs : List String) (hc : (c, rs) ∈ cp)
    (hpos : ∀ p ∈ corpus, 1 ≤ p.2) :
    ∃ f, generate_word_freq conv corpus cp (toString c) = some f ∧ 1 ≤ f := by
  unfold generate_word_freq
  exact add_single_chars_hit cp _ c rs hc
    (apply_boost_pos _ _ (word_corpus_counts_pos conv corpus hpos)
      (by decide))

/-- Witness for the amended C5. -/
theorem single_char_floor_amended_witness :
    (('一', ["yi1"]) ∈ [('一', ["yi1"])] ∧ ∀ p ∈ [(("一" : String), 2)], 1 ≤ p.2)
    ∧ ∃ f, generate_word_freq (fun s => s) [("一", 2)] [('一', ["yi1"])] "一"
        = some f ∧ 1 ≤ f := by
  refine ⟨⟨by simp, by simp⟩, ?_⟩
  have h := single_char_floor_amended (fun s => s) [("一", 2)]
    [('一', ["yi1"])] '一' ["yi1"] (by simp) (by simp)
  exact h

theorem bigram_inner_fold_getD (f : ℕ) (bgs : List String)
    (m : String → Option ℕ) (k : String) :
    ((bgs.foldl (fun m' bg => updateFreq m' bg ((m' bg).getD 0 + f)) m) k).getD 0
      = (m k).getD 0 + bgs.count k * f := by
  induction bgs generalizing m with
  | nil => simp
  | cons bg bgs ih =>
    rw [List.foldl_cons, ih]
    unfold updateFreq
    rcases eq_or_ne k bg with heq | hne
    · subst heq
      rw [if_pos rfl]
      rw [List.count_cons]
      simp [Nat.add_mul]
      ring
    · rw [if_neg hne, List.count_cons]
      have hbeq : (bg == k) = false := beq_eq_false_iff_ne.mpr (Ne.symm hne)
      rw [hbeq]
      simp

theorem mem_bigramsOf_length (w : String) (bg : String)
    (h : bg ∈ bigramsOf w) : bg.length = 2 := by
  unfold bigramsOf at h
  obtain ⟨p, _, hp⟩ := List.mem_map.mp h
  rw [← hp]
  rfl

theorem bigramsOf_short (w : String) (h : w.length < 2) : bigramsOf w = [] := by
  unfold bigramsOf
  have : w.data.length < 2 := h
  match hd : w.data with
  | [] => rfl
  | [a] => rfl
  | a :: b :: rest =>
    rw [hd] at this
    simp only [List.length_cons] at this
    omega

theorem bigram_inner_fold_keys (f : ℕ) (w : String)
    (bgs : List String) (hbgs : ∀ bg ∈ bgs, bg ∈ bigramsOf w)
    (m : String → Option ℕ) (hm : KeyLen2 m) :
    KeyLen2 (bgs.foldl (fun m' bg => updateFreq m' bg ((m' bg).getD 0 + f)) m) := by
  induction bgs generalizing m with
  | nil => exact hm
  | cons bg bgs ih =>
    rw [List.foldl_cons]
    apply ih
    · intro b hb
      exact hbgs b (List.mem_cons_of_mem bg hb)
    · intro k hk
      unfold updateFreq at hk
      by_cases h : k = bg
      · rw [h]
        exact mem_bigramsOf_length w bg (hbgs bg (List.mem_cons_self bg bgs))
      · rw [if_neg h] at hk
        exact hm k hk

theorem bigram_counts_keys (items : List (String × ℕ)) :
    KeyLen2 (bigram_counts items) := by
  unfold bigram_counts
  have : ∀ (l : List (String × ℕ)) (m : String → Option ℕ), KeyLen2 m →
      KeyLen2 (l.foldl
        (fun m p =>
          if p.1.length < 2 then m
          else (bigramsOf p.1).foldl
            (fun m' bg => updateFreq m' bg ((m' bg).getD 0 + p.2)) m) m) := by
    intro l
    induction l with
    | nil => intro m hm; exact hm
    | cons p l ih =>
      intro m hm
      rw [List.foldl_cons]
      apply ih
      by_cases h : p.1.length < 2
      · rw [if_pos h]; exact hm
      · rw [if_neg h]
        exact bigram_inner_fold_keys p.2 p.1 (bigramsOf p.1) (fun _ hb => hb) m hm
  exact this items (fun _ => none) (by intro k hk; cases hk)

theorem apply_boost_keys (m : String → Option ℕ)
    (boosts : List (String × ℕ)) (hm : KeyLen2 m)
    (hb : ∀ p ∈ boosts, p.1.length = 2) : KeyLen2 (apply_boost m boosts) := by
  unfold apply_boost
  induction boosts generalizing m with
  | nil => exact hm
  | cons b bs ih =>
    rw [List.foldl_cons]
    apply ih
    · intro k hk
      unfold updateFreq at hk
      by_cases h : k = b.1
      · rw [h]
        exact hb b (List.mem_cons_self b bs)
      · rw [if_neg h] at hk
        exact hm k hk
    · intro q hq
      exact hb q (List.mem_cons_of_mem b hq)

theorem bigram_counts_getD (items : List (String × ℕ)) (k : String) :
    (bigram_counts items k).getD 0
      = (items.map (fun p => (bigramsOf p.1).count k * p.2)).sum := by
  unfold bigram_counts
  have : ∀ (l : List (String × ℕ)) (m : String → Option ℕ),
      ((l.foldl
        (fun m p =>
          if p.1.length < 2 then m
          else (bigramsOf p.1).foldl
            (fun m' bg => updateFreq m' bg ((m' bg).getD 0 + p.2)) m) m) k).getD 0
        = (m k).getD 0 + (l.map (fun p => (bigramsOf p.1).count k * p.2)).sum := by
    intro l
    induction l with
    | nil => intro m; simp
    | cons p l ih =>
      intro m
      rw [List.foldl_cons]
      by_cases h : p.1.length < 2
      · rw [if_pos h, ih, List.map_cons, List.sum_cons, bigramsOf_short p.1 h]
        simp
      · rw [if_neg h, ih, bigram_inner_fold_getD]
        simp [Nat.add_assoc]
  rw [this items (fun _ => none)]
  simp

/-- C8: every entry of the bigram store has a two-character key and a
frequency strictly above 50; the pre-pruning count of a key is the sum,
over all stored words, of sliding-window occurrences weighted by the parent
word's frequency; and any key whose boosted count is at most 50 is pruned
from the output. -/
theorem bigram_freq_spec (items : List (String × ℕ)) (k : String) :
    (∀ f, generate_bigram_freq items k = some f → 50 < f ∧ k.length = 2)
    ∧ (bigram_counts items k).getD 0
        = (items.map (fun p => (bigramsOf p.1).count k * p.2)).sum
    ∧ ((apply_boost (bigram_counts items) TAIWAN_EXTRA_BIGRAMS k).getD 0 ≤ 50
        → generate_bigram_freq items k = none) := by
  refine ⟨?_, bigram_counts_getD items k, ?_⟩
  · intro f hf
    unfold generate_bigram_freq at hf
    have hkeys : KeyLen2 (apply_boost (bigram_counts items) TAIWAN_EXTRA_BIGRAMS) :=
      apply_boost_keys _ _ (bigram_counts_keys items) (by decide)
    match hb : apply_boost (bigram_counts items) TAIWAN_EXTRA_BIGRAMS k with
    | none => rw [hb] at hf; cases hf
    | some g =>
      rw [hb] at hf
      simp only [prune50] at hf
      by_cases hg : 50 < g
      · rw [if_pos hg] at hf
        have : g = f := Option.some_inj.mp hf
        subst this
        refine ⟨hg, hkeys k ?_⟩
        rw [hb]; rfl
      · rw [if_neg hg] at hf
        cases hf
  · intro hle
    unfold generate_bigram_freq
    rcases hb : apply_boost (bigram_counts items) TAIWAN_EXTRA_BIGRAMS k with _ | g
    · rfl
    · rw [hb, Option.getD_some] at hle
      simp only [prune50]
      rw [if_neg (by omega)]

/-- Witness for C8 at a one-word store; the key `程式` is boosted to 80000. -/
theorem bigram_freq_spec_witness :
    generate_bigram_freq [("程式", 10)] "程式" = some 80000
    ∧ 50 < 80000 ∧ ("程式" : String).length = 2 :=
  ⟨by decide, (bigram_freq_spec [("程式", 10)] "程式").1 80000 (by decide)⟩

/-- C3: the detector marks a span suspicious exactly when its length is ≥ 2
and its Lexical Frequency Store entry is absent or below the threshold 5 and
the segmenter does not accept the span as one token; a segmenter-accepted
span is trusted regardless of frequency; and the reference validation
logic's suspicious set consists exactly of the stored multi-character words
whose frequency lies in `1..5`. -/
theorem suspicious_span_spec (wordFreq : String → Option ℕ)
    (seg : String → Bool) (span : String) (freqs : List (String × ℕ))
    (w : String) (f : ℕ) :
    (findSuspicious wordFreq seg span = true ↔
      (2 ≤ span.length
        ∧ (wordFreq span = none
            ∨ ∃ g, wordFreq span = some g ∧ g < LOW_FREQ_THRESHOLD)
        ∧ seg span = false))
    ∧ (seg span = true → findSuspicious wordFreq seg span = false)
    ∧ ((w, f) ∈ low_freq_words freqs ↔
        ((w, f) ∈ freqs ∧ 1 ≤ f ∧ f ≤ LOW_FREQ_THRESHOLD ∧ 2 ≤ w.length)) := by
  have hiff : findSuspicious wordFreq seg span = true ↔
      (2 ≤ span.length
        ∧ (wordFreq span = none
            ∨ ∃ g, wordFreq span = some g ∧ g < LOW_FREQ_THRESHOLD)
        ∧ seg span = false) := by
    unfold findSuspicious
    rcases h : wordFreq span with _ | g
    · simp [Bool.and_eq_true, Bool.not_eq_true']
    · simp [Bool.and_eq_true, Bool.not_eq_true']
      tauto
  refine ⟨hiff, ?_, ?_⟩
  · intro hseg
    cases hfs : findSuspicious wordFreq seg span
    · rfl
    · have := (hiff.mp hfs).2.2
      rw [hseg] at this
      cases this
  · unfold low_freq_words
    rw [List.mem_filter]
    simp

/-- Witness for C3: a segmenter-accepted span (`捷運`) is not flagged even
though its stored frequency is below the threshold, and a concrete
low-frequency two-character word is in the validation suspicious set. -/
theorem suspicious_span_spec_witness :
    ((fun _ => true : String → Bool) "捷運" = true
      ∧ findSuspicious (fun _ => some 1) (fun _ => true) "捷運" = false)
    ∧ (("朝暮", 3) ∈ low_freq_words [("朝暮", 3)] ↔
        (("朝暮", 3) ∈ [(("朝暮" : String), 3)]
          ∧ 1 ≤ 3 ∧ 3 ≤ LOW_FREQ_THRESHOLD ∧ 2 ≤ ("朝暮" : String).length)) :=
  ⟨⟨rfl, (suspicious_span_spec (fun _ => some 1) (fun _ => true) "捷運"
      [] "" 0).2.1 rfl⟩,
   (suspicious_span_spec (fun _ => some 1) (fun _ => true) "捷運"
      [("朝暮", 3)] "朝暮" 3).2.2⟩

end Voco
